import Mathlib

/-!
Verification of the patch/revision specification parser core.

The repository fragment under `src/src/patch/parse/mod.rs` declares the
module layout, the public re-export line, and the `Sign` enumeration.
The grammar modules themselves (`numbers`, `name`, `revision`, `locator`,
`range`) are not present in the supplied source, so they are modelled
here from the specification (each such definition carries a doc comment
starting `Modelled from the spec:`).
-/

namespace Patch

/-- Submodules of the `parse` module, as declared in
`src/src/patch/parse/mod.rs` lines 5-9. -/
inductive Submodule
  | locator
  | name
  | numbers
  | range
  | revision
deriving DecidableEq

/-- Whether a submodule's items are publicly re-exported from the parse
module, per `pub(super) use self::{locator::*, range::*, revision::*};`
(`mod.rs` line 14). -/
def reexported : Submodule → Bool
  | .locator => true
  | .name => false
  | .numbers => false
  | .range => true
  | .revision => true

/-- The sign of a number, from `mod.rs` lines 17-20. -/
inductive Sign
  | Plus
  | Minus
deriving DecidableEq

/-- Modelled from the spec: `SignedOffset` (§3), a `Sign` and a
non-negative integer magnitude; the source `numbers` module is missing. -/
structure SignedOffset where
  sign : Sign
  magnitude : Nat
deriving DecidableEq

/-- Modelled from the spec: the base of a `Revision` (§4.3), either a
patch name or a numeric stack index; the source `revision` module is
missing. -/
inductive RevBase
  | name (cs : List Char)
  | index (n : Nat)
deriving DecidableEq

/-- Modelled from the spec: a `Revision` (§3, §4.3), a base plus an
optional discriminator; the source `revision` module is missing. -/
structure Revision where
  base : RevBase
  disc : Option Nat
deriving DecidableEq

/-- Modelled from the spec: the base alternative of a `Locator` (§4.4);
the source `locator` module is missing. -/
inductive LocBase
  | cursor (tok : List Char)
  | off (o : SignedOffset)
  | rev (r : Revision)
deriving DecidableEq

/-- Modelled from the spec: a `Locator` (§3, §4.4), a base optionally
followed by a chain of signed offsets; the source `locator` module is
missing. -/
structure Locator where
  base : LocBase
  offsets : List SignedOffset
deriving DecidableEq

/-- Modelled from the spec: one end of a range (§3), a locator plus an
inclusive flag; the source `range` module is missing. -/
structure RangeEndpoint where
  loc : Locator
  inclusive : Bool
deriving DecidableEq

/-- Modelled from the spec: a `Range` (§3, §4.5), an ordered pair of
optional endpoints; the source `range` module is missing. -/
structure Range where
  start : Option RangeEndpoint
  stop : Option RangeEndpoint
deriving DecidableEq

/-- Modelled from the spec: the error taxonomy of §7; the shared error
plumbing is missing from the source. -/
inductive ErrKind
  | expected (what : String)
  | outOfRange
  | reserved (tok : String)
  | malformedDiscriminator
  | emptyRange
  | trailingInput
deriving DecidableEq

/-- Modelled from the spec: an internal parser failure, carrying the
length of the unconsumed input at the failure point (the nom model: the
error reports the unconsumed input, §4.6). -/
structure PError where
  rem : Nat
  kind : ErrKind
deriving DecidableEq

/-- Modelled from the spec: the public error value; each error carries
the byte offset at which it was detected (§7). -/
structure ParseError where
  offset : Nat
  kind : ErrKind
deriving DecidableEq

/-- Modelled from the spec: the 64-bit unsigned maximum (§4.1). -/
def u64max : Nat := 18446744073709551615

/-- Modelled from the spec: numeric value of a decimal digit character. -/
def digitVal (c : Char) : Nat := c.toNat - 48

/-- Modelled from the spec: value of an unsigned decimal digit run (§4.1). -/
def digitsToNat (l : List Char) : Nat :=
  l.foldl (fun a c => a * 10 + digitVal c) 0

/-- Modelled from the spec: the decimal digit character for `d < 10`. -/
def digitChar : Nat → Char
  | 0 => '0'
  | 1 => '1'
  | 2 => '2'
  | 3 => '3'
  | 4 => '4'
  | 5 => '5'
  | 6 => '6'
  | 7 => '7'
  | 8 => '8'
  | _ => '9'

/-- Modelled from the spec: canonical decimal rendering of a natural
number (most significant digit first, no leading zeros). -/
def natDigits (n : Nat) : List Char :=
  if h : n < 10 then [digitChar n]
  else natDigits (n / 10) ++ [digitChar (n % 10)]
termination_by n
decreasing_by
  exact Nat.div_lt_self (by omega) (by omega)

/-- Modelled from the spec: the name character set of §4.2 (ASCII
letters, digits, underscore, hyphen, dot, slash). -/
def isNameChar (c : Char) : Bool :=
  c.isAlpha || c.isDigit || c == '_' || c == '-' || c == '.' || c == '/'

/-- Modelled from the spec: lexeme-boundary lookahead. A name run stops
before `..` (the range separator, §4.5) and before a sign immediately
followed by a digit (a trailing signed offset, §4.4 scenario 4). -/
def sepStop (c : Char) : Option Char → Bool
  | some d => (c == '.' && d == '.') || (c == '-' && d.isDigit)
  | none => false

/-- Modelled from the spec: scan a maximal name run (§4.2) honouring the
lexeme boundaries of `sepStop`; returns the run and the rest. -/
def scanName : List Char → List Char × List Char
  | [] => ([], [])
  | c :: rest =>
    if sepStop c rest.head? then ([], c :: rest)
    else if isNameChar c then
      (c :: (scanName rest).1, (scanName rest).2)
    else ([], c :: rest)

/-- Modelled from the spec: the reserved cursor token `top` (§4.2, §4.4). -/
def tTop : List Char := ['t', 'o', 'p']

/-- Modelled from the spec: the reserved cursor token `base` (§4.2, §4.4). -/
def tBase : List Char := ['b', 'a', 's', 'e']

/-- Modelled from the spec: the unsigned-integer parser of §4.1. One or
more decimal digits; the magnitude must fit a 64-bit unsigned integer,
larger values fail with `OutOfRange`. -/
def pUnsigned (l : List Char) : Except PError (Nat × List Char) :=
  match l.takeWhile Char.isDigit with
  | [] => .error ⟨l.length, .expected "digit"⟩
  | d :: ds =>
    if u64max < digitsToNat (d :: ds) then .error ⟨l.length, .outOfRange⟩
    else .ok (digitsToNat (d :: ds), l.dropWhile Char.isDigit)

/-- Modelled from the spec: canonicalize a signed offset; a zero
magnitude with either sign yields the single canonical zero offset (§3
invariants). -/
def mkOffset (s : Sign) (m : Nat) : SignedOffset :=
  if m = 0 then ⟨Sign.Plus, 0⟩ else ⟨s, m⟩

/-- Modelled from the spec: the signed-offset parser of §4.1. An
explicit `+` or `-` followed immediately by one or more digits. -/
def pSignedOffset : List Char → Except PError (SignedOffset × List Char)
  | [] => .error ⟨0, .expected "offset"⟩
  | c :: rest =>
    if c == '+' || c == '-' then
      match rest.takeWhile Char.isDigit with
      | [] => .error ⟨rest.length, .expected "digit"⟩
      | d :: ds =>
        if u64max < digitsToNat (d :: ds) then
          .error ⟨rest.length + 1, .outOfRange⟩
        else
          .ok (mkOffset (if c == '+' then Sign.Plus else Sign.Minus)
                 (digitsToNat (d :: ds)),
               rest.dropWhile Char.isDigit)
    else .error ⟨rest.length + 1, .expected "offset"⟩

/-- Modelled from the spec: the name parser of §4.2. A maximal name run
not beginning with a digit, `+` or `-`, and not a reserved cursor
token. -/
def pName (l : List Char) : Except PError (List Char × List Char) :=
  match l with
  | [] => .error ⟨0, .expected "name"⟩
  | c :: rest =>
    if c.isDigit || c == '+' || c == '-' then
      .error ⟨rest.length + 1, .expected "name"⟩
    else
      match scanName (c :: rest) with
      | ([], _) => .error ⟨rest.length + 1, .expected "name"⟩
      | (r :: run, rest2) =>
        if r :: run = tTop then .error ⟨rest.length + 1, .reserved "top"⟩
        else if r :: run = tBase then .error ⟨rest.length + 1, .reserved "base"⟩
        else .ok (r :: run, rest2)

/-- Modelled from the spec: the base of a revision (§4.3), a name or an
unsigned integer; a no-match is reported as `Expected("revision")`. -/
def pRevisionBase (l : List Char) : Except PError (RevBase × List Char) :=
  match l with
  | [] => .error ⟨0, .expected "revision"⟩
  | c :: rest =>
    if c.isDigit then
      match pUnsigned (c :: rest) with
      | .error e => .error e
      | .ok (n, rest2) => .ok (.index n, rest2)
    else
      match pName (c :: rest) with
      | .error ⟨r, .expected _⟩ => .error ⟨r, .expected "revision"⟩
      | .error e => .error e
      | .ok (cs, rest2) => .ok (.name cs, rest2)

/-- Modelled from the spec: the revision parser of §4.3,
`base ('~' discriminator)?`; a delimiter with no following integer is
`MalformedDiscriminator`. -/
def pRevision (l : List Char) : Except PError (Revision × List Char) :=
  match pRevisionBase l with
  | .error e => .error e
  | .ok (b, rest) =>
    match rest with
    | '~' :: rest2 =>
      match pUnsigned rest2 with
      | .error ⟨r, .expected _⟩ => .error ⟨r, .malformedDiscriminator⟩
      | .error e => .error e
      | .ok (d, rest3) => .ok (⟨b, some d⟩, rest3)
    | _ => .ok (⟨b, none⟩, rest)

/-- Modelled from the spec: the trailing chain of signed offsets of a
composite locator (§4.4), parsed left-to-right with each step recorded
in order; the fuel argument bounds the number of chain steps (each
signed offset consumes at least one character, so input length is
always enough fuel). -/
def pOffsetsF : Nat → List Char → Except PError (List SignedOffset × List Char)
  | 0, l => .ok ([], l)
  | _ + 1, [] => .ok ([], [])
  | fuel + 1, c :: rest =>
    if c == '+' || c == '-' then
      match pSignedOffset (c :: rest) with
      | .error e => .error e
      | .ok (o, rest1) =>
        match pOffsetsF fuel rest1 with
        | .error e => .error e
        | .ok (os, rest2) => .ok (o :: os, rest2)
    else .ok ([], c :: rest)

/-- Modelled from the spec: the trailing chain of signed offsets of a
composite locator (§4.4), with fuel fixed to the input length. -/
def pOffsets (l : List Char) : Except PError (List SignedOffset × List Char) :=
  pOffsetsF l.length l

/-- Modelled from the spec: the locator parser of §4.4. Alternatives in
order: reserved cursor token, signed offset, revision; then an optional
chain of signed offsets. -/
def pLocator (l : List Char) : Except PError (Locator × List Char) :=
  match l with
  | [] => .error ⟨0, .expected "locator"⟩
  | c :: rest =>
    if (scanName (c :: rest)).1 = tTop then
      match pOffsets (scanName (c :: rest)).2 with
      | .error e => .error e
      | .ok (os, rest2) => .ok (⟨.cursor tTop, os⟩, rest2)
    else if (scanName (c :: rest)).1 = tBase then
      match pOffsets (scanName (c :: rest)).2 with
      | .error e => .error e
      | .ok (os, rest2) => .ok (⟨.cursor tBase, os⟩, rest2)
    else if c == '+' || c == '-' then
      match pSignedOffset (c :: rest) with
      | .error e => .error e
      | .ok (o, rest1) =>
        match pOffsets rest1 with
        | .error e => .error e
        | .ok (os, rest2) => .ok (⟨.off o, os⟩, rest2)
    else
      match pRevision (c :: rest) with
      | .error e => .error e
      | .ok (r, rest1) =>
        match pOffsets rest1 with
        | .error e => .error e
        | .ok (os, rest2) => .ok (⟨.rev r, os⟩, rest2)

/-- Modelled from the spec: recognize a range separator at the head of
the input (§4.5): `...` means exclusive end, `..` inclusive; returns
the exclusivity flag and the rest. -/
def stripSep : List Char → Option (Bool × List Char)
  | '.' :: '.' :: '.' :: rest => some (true, rest)
  | '.' :: '.' :: rest => some (false, rest)
  | _ => none

/-- Modelled from the spec: the range parser of §4.5,
`locator? separator locator? | locator`; both endpoints absent is
`EmptyRange`, a bare locator is a degenerate inclusive range. -/
def pRange (l : List Char) : Except PError (Range × List Char) :=
  match stripSep l with
  | some (excl, rest) =>
    match rest with
    | [] => .error ⟨l.length, .emptyRange⟩
    | _ =>
      match pLocator rest with
      | .error e => .error e
      | .ok (loc, rest2) =>
        .ok ({ start := none, stop := some ⟨loc, !excl⟩ }, rest2)
  | none =>
    match pLocator l with
    | .error e => .error e
    | .ok (loc, rest) =>
      match stripSep rest with
      | none =>
        match rest with
        | [] => .ok ({ start := some ⟨loc, true⟩, stop := some ⟨loc, true⟩ }, [])
        | _ => .error ⟨rest.length, .expected "separator"⟩
      | some (excl, rest2) =>
        match rest2 with
        | [] => .ok ({ start := some ⟨loc, true⟩, stop := none }, [])
        | _ =>
          match pLocator rest2 with
          | .error e => .error e
          | .ok (loc2, rest3) =>
            .ok ({ start := some ⟨loc, true⟩, stop := some ⟨loc2, !excl⟩ }, rest3)

/-- Modelled from the spec: the `parse_locator` entry point (§6); the
full input must be consumed, trailing text is `TrailingInput` (§7), and
the public error offset is derived from the unconsumed length. -/
def parse_locator (s : String) : Except ParseError Locator :=
  match pLocator s.data with
  | .error e => .error ⟨s.data.length - e.rem, e.kind⟩
  | .ok (v, []) => .ok v
  | .ok (_, c :: rest) => .error ⟨s.data.length - (c :: rest).length, .trailingInput⟩

/-- Modelled from the spec: the `parse_revision` entry point (§6). -/
def parse_revision (s : String) : Except ParseError Revision :=
  match pRevision s.data with
  | .error e => .error ⟨s.data.length - e.rem, e.kind⟩
  | .ok (v, []) => .ok v
  | .ok (_, c :: rest) => .error ⟨s.data.length - (c :: rest).length, .trailingInput⟩

/-- Modelled from the spec: the `parse_range` entry point (§6). -/
def parse_range (s : String) : Except ParseError Range :=
  match pRange s.data with
  | .error e => .error ⟨s.data.length - e.rem, e.kind⟩
  | .ok (v, []) => .ok v
  | .ok (_, c :: rest) => .error ⟨s.data.length - (c :: rest).length, .trailingInput⟩

/-- Modelled from the spec: the canonical text of a revision base (§8
round-trip property): a name verbatim, an index in decimal. -/
def renderBase : RevBase → List Char
  | .name cs => cs
  | .index n => natDigits n

/-- Modelled from the spec: the canonical text of a `Revision` (§8
round-trip property): the base, then `~` and the discriminator in
decimal when present. -/
def renderRevision (r : Revision) : String :=
  String.mk (renderBase r.base ++
    (match r.disc with
     | none => []
     | some d => '~' :: natDigits d))

/-- Modelled from the spec: downstream equality on signed offsets (§8):
zero offsets of either sign are equivalent; otherwise componentwise. -/
def soEquiv (a b : SignedOffset) : Bool :=
  (a.magnitude == 0 && b.magnitude == 0) ||
  (a.sign == b.sign && a.magnitude == b.magnitude)

theorem parse_locator_of_core {s : String} {v : Locator}
    (h : pLocator s.data = .ok (v, [])) : parse_locator s = .ok v := by
  simp [parse_locator, h]

theorem parse_revision_of_core {s : String} {v : Revision}
    (h : pRevision s.data = .ok (v, [])) : parse_revision s = .ok v := by
  simp [parse_revision, h]

theorem parse_range_of_core {s : String} {v : Range}
    (h : pRange s.data = .ok (v, [])) : parse_range s = .ok v := by
  simp [parse_range, h]

theorem parse_locator_ok_inv {s : String} {v : Locator}
    (h : parse_locator s = .ok v) : pLocator s.data = .ok (v, []) := by
  cases h' : pLocator s.data with
  | error e => simp [parse_locator, h'] at h
  | ok p =>
    obtain ⟨w, rest⟩ := p
    cases rest with
    | nil =>
      simp [parse_locator, h'] at h
      subst h
      rfl
    | cons c t => simp [parse_locator, h'] at h

theorem parse_revision_ok_inv {s : String} {v : Revision}
    (h : parse_revision s = .ok v) : pRevision s.data = .ok (v, []) := by
  cases h' : pRevision s.data with
  | error e => simp [parse_revision, h'] at h
  | ok p =>
    obtain ⟨w, rest⟩ := p
    cases rest with
    | nil =>
      simp [parse_revision, h'] at h
      subst h
      rfl
    | cons c t => simp [parse_revision, h'] at h

theorem parse_range_ok_inv {s : String} {v : Range}
    (h : parse_range s = .ok v) : pRange s.data = .ok (v, []) := by
  cases h' : pRange s.data with
  | error e => simp [parse_range, h'] at h
  | ok p =>
    obtain ⟨w, rest⟩ := p
    cases rest with
    | nil =>
      simp [parse_range, h'] at h
      subst h
      rfl
    | cons c t => simp [parse_range, h'] at h

/-- C1: the public surface of the parse module re-exports exactly the
locator, range and revision submodules; nothing from the name or
numbers modules is exposed. -/
theorem C1_public_surface :
    (∀ m : Submodule, reexported m = true →
      m = Submodule.locator ∨ m = Submodule.range ∨ m = Submodule.revision) ∧
    reexported Submodule.name = false ∧ reexported Submodule.numbers = false := by
  refine ⟨?_, rfl, rfl⟩
  intro m h
  cases m <;> simp_all [reexported]

theorem C1_public_surface_witness :
    Submodule.locator = Submodule.locator ∨ Submodule.locator = Submodule.range ∨
      Submodule.locator = Submodule.revision :=
  C1_public_surface.1 Submodule.locator rfl

/-- C2: `Sign` is a closed sum of exactly the two stateless variants
`Plus` and `Minus`: every value is one of the two, and two values of
the same variant are equal. -/
theorem C2_sign_closed :
    (∀ s : Sign, s = Sign.Plus ∨ s = Sign.Minus) ∧
    (∀ s t : Sign, (s = Sign.Plus ↔ t = Sign.Plus) → s = t) := by
  constructor
  · intro s
    cases s
    · exact Or.inl rfl
    · exact Or.inr rfl
  · intro s t h
    cases s <;> cases t <;> simp_all

theorem C2_sign_closed_witness : Sign.Minus = Sign.Minus :=
  C2_sign_closed.2 Sign.Minus Sign.Minus (by simp)

/-- C3: each entry parser is a total function: on every input string it
returns either a parsed value or a structured error value, with no
other outcome. -/
theorem C3_total : ∀ s : String,
    ((∃ v, parse_locator s = .ok v) ∨ (∃ e, parse_locator s = .error e)) ∧
    ((∃ v, parse_revision s = .ok v) ∨ (∃ e, parse_revision s = .error e)) ∧
    ((∃ v, parse_range s = .ok v) ∨ (∃ e, parse_range s = .error e)) := by
  have f : ∀ {α : Type} (x : Except ParseError α),
      (∃ v, x = .ok v) ∨ (∃ e, x = .error e) := by
    intro α x
    cases x with
    | ok v => exact Or.inl ⟨v, rfl⟩
    | error e => exact Or.inr ⟨e, rfl⟩
  exact fun s => ⟨f (parse_locator s), f (parse_revision s), f (parse_range s)⟩

theorem C3_total_witness :
    ((∃ v, parse_locator "top" = .ok v) ∨ (∃ e, parse_locator "top" = .error e)) ∧
    ((∃ v, parse_revision "top" = .ok v) ∨ (∃ e, parse_revision "top" = .error e)) ∧
    ((∃ v, parse_range "top" = .ok v) ∨ (∃ e, parse_range "top" = .error e)) :=
  C3_total "top"

/-- C5: an unsigned decimal literal whose magnitude is exactly the
64-bit unsigned maximum parses, and the same digits followed by one
more digit fail with `OutOfRange`. -/
theorem C5_u64_boundary :
    parse_revision "18446744073709551615" =
      .ok ⟨.index 18446744073709551615, none⟩ ∧
    parse_revision "184467440737095516150" = .error ⟨0, .outOfRange⟩ :=
  ⟨rfl, rfl⟩

/-- C10: a signed offset of magnitude zero is accepted with either
sign, the two parses produce the single canonical zero offset, and the
results are equal under downstream equality. -/
theorem C10_zero_offset :
    parse_locator "+0" = .ok ⟨.off ⟨Sign.Plus, 0⟩, []⟩ ∧
    parse_locator "-0" = .ok ⟨.off ⟨Sign.Plus, 0⟩, []⟩ ∧
    soEquiv ⟨Sign.Plus, 0⟩ ⟨Sign.Plus, 0⟩ = true ∧
    soEquiv ⟨Sign.Plus, 0⟩ ⟨Sign.Minus, 0⟩ = true :=
  ⟨rfl, rfl, rfl, rfl⟩

/-- C4: every entry point requires full consumption: whenever the core
grammar matches only a proper prefix, the entry point reports
`TrailingInput` at the offset where consumption stopped; in particular
`parse_revision "12abc"` fails with `TrailingInput` at offset 2. -/
theorem C4_trailing_input :
    (∀ (s : String) (v : Locator) (c : Char) (t : List Char),
      pLocator s.data = .ok (v, c :: t) →
      parse_locator s = .error ⟨s.length - (c :: t).length, .trailingInput⟩) ∧
    (∀ (s : String) (v : Revision) (c : Char) (t : List Char),
      pRevision s.data = .ok (v, c :: t) →
      parse_revision s = .error ⟨s.length - (c :: t).length, .trailingInput⟩) ∧
    (∀ (s : String) (v : Range) (c : Char) (t : List Char),
      pRange s.data = .ok (v, c :: t) →
      parse_range s = .error ⟨s.length - (c :: t).length, .trailingInput⟩) ∧
    parse_revision "12abc" = .error ⟨2, .trailingInput⟩ := by
  refine ⟨?_, ?_, ?_, rfl⟩
  · intro s v c t h
    have goal : parse_locator s =
        .error ⟨s.data.length - (c :: t).length, .trailingInput⟩ := by
      unfold parse_locator
      rw [h]
    exact goal
  · intro s v c t h
    have goal : parse_revision s =
        .error ⟨s.data.length - (c :: t).length, .trailingInput⟩ := by
      unfold parse_revision
      rw [h]
    exact goal
  · intro s v c t h
    have goal : parse_range s =
        .error ⟨s.data.length - (c :: t).length, .trailingInput⟩ := by
      unfold parse_range
      rw [h]
    exact goal

theorem C4_trailing_input_witness :
    parse_revision "12abc" =
      .error ⟨("12abc" : String).length - (['a', 'b', 'c'] : List Char).length,
        .trailingInput⟩ :=
  C4_trailing_input.2.1 "12abc" ⟨.index 12, none⟩ 'a' ['b', 'c'] rfl

/-- C9: for every string rejected by any of the three entry points, the
error carries a byte offset lying within the interval from 0 to the
length of the input. -/
theorem C9_offset_in_range :
    (∀ (s : String) (e : ParseError), parse_locator s = .error e →
      e.offset ≤ s.length) ∧
    (∀ (s : String) (e : ParseError), parse_revision s = .error e →
      e.offset ≤ s.length) ∧
    (∀ (s : String) (e : ParseError), parse_range s = .error e →
      e.offset ≤ s.length) := by
  refine ⟨?_, ?_, ?_⟩
  · intro s e h
    cases h' : pLocator s.data with
    | error e' =>
      simp [parse_locator, h'] at h
      subst h
      exact Nat.sub_le _ _
    | ok p =>
      obtain ⟨v, rest⟩ := p
      cases rest with
      | nil => simp [parse_locator, h'] at h
      | cons c t =>
        simp [parse_locator, h'] at h
        subst h
        exact Nat.sub_le _ _
  · intro s e h
    cases h' : pRevision s.data with
    | error e' =>
      simp [parse_revision, h'] at h
      subst h
      exact Nat.sub_le _ _
    | ok p =>
      obtain ⟨v, rest⟩ := p
      cases rest with
      | nil => simp [parse_revision, h'] at h
      | cons c t =>
        simp [parse_revision, h'] at h
        subst h
        exact Nat.sub_le _ _
  · intro s e h
    cases h' : pRange s.data with
    | error e' =>
      simp [parse_range, h'] at h
      subst h
      exact Nat.sub_le _ _
    | ok p =>
      obtain ⟨v, rest⟩ := p
      cases rest with
      | nil => simp [parse_range, h'] at h
      | cons c t =>
        simp [parse_range, h'] at h
        subst h
        exact Nat.sub_le _ _

theorem C9_offset_in_range_witness :
    (⟨0, ErrKind.expected "revision"⟩ : ParseError).offset ≤
      ("" : String).length :=
  C9_offset_in_range.2.1 "" ⟨0, .expected "revision"⟩ rfl

theorem stripSep_some_shape {l : List Char} {p : Bool × List Char}
    (h : stripSep l = some p) : ∃ t, l = '.' :: '.' :: t := by
  unfold stripSep at h
  split at h
  · exact ⟨_, rfl⟩
  · exact ⟨_, rfl⟩
  · simp at h

theorem pLocator_dotdot (t : List Char) :
    pLocator ('.' :: '.' :: t) =
      .error ⟨t.length + 2, .expected "revision"⟩ := by
  have hd : ('.' : Char).isDigit = false := rfl
  have hp : ('.' == '+') = false := rfl
  have hm : ('.' == '-') = false := rfl
  have hscan : scanName ('.' :: '.' :: t) = ([], '.' :: '.' :: t) := by
    simp only [scanName, List.head?, sepStop]
    rw [if_pos (by rfl)]
  have hname : pName ('.' :: '.' :: t) =
      .error ⟨t.length + 2, .expected "name"⟩ := by
    simp [pName, hscan, hd, hp, hm]
  have hbase : pRevisionBase ('.' :: '.' :: t) =
      .error ⟨t.length + 2, .expected "revision"⟩ := by
    simp [pRevisionBase, hname, hd]
  have hrev : pRevision ('.' :: '.' :: t) =
      .error ⟨t.length + 2, .expected "revision"⟩ := by
    simp [pRevision, hbase]
  simp [pLocator, hscan, hrev, tTop, tBase, hp, hm]

/-- C7: any string that parses as a bare locator consuming the whole
input yields, through `parse_range`, a degenerate range whose start and
end are the same locator and both inclusive. -/
theorem C7_bare_locator_range :
    ∀ (s : String) (loc : Locator),
      pLocator s.data = .ok (loc, []) →
      parse_range s = .ok ⟨some ⟨loc, true⟩, some ⟨loc, true⟩⟩ := by
  intro s loc h
  have hsep : stripSep s.data = none := by
    cases hss : stripSep s.data with
    | none => rfl
    | some p =>
      obtain ⟨t, ht⟩ := stripSep_some_shape hss
      rw [ht, pLocator_dotdot] at h
      simp at h
  apply parse_range_of_core
  simp only [pRange, hsep, h]
  rfl

theorem C7_bare_locator_range_witness :
    parse_range "top" =
      .ok ⟨some ⟨⟨.cursor tTop, []⟩, true⟩, some ⟨⟨.cursor tTop, []⟩, true⟩⟩ :=
  C7_bare_locator_range "top" ⟨.cursor tTop, []⟩ rfl

theorem pRange_ok_endpoint {l : List Char} {rg : Range} {rest : List Char}
    (h : pRange l = .ok (rg, rest)) :
    rg.start.isSome = true ∨ rg.stop.isSome = true := by
  unfold pRange at h
  split at h
  · split at h
    · simp at h
    · split at h
      · simp at h
      · simp only [Except.ok.injEq, Prod.mk.injEq] at h
        obtain ⟨h1, -⟩ := h
        subst h1
        right
        rfl
  · split at h
    · simp at h
    · split at h
      · split at h
        · simp only [Except.ok.injEq, Prod.mk.injEq] at h
          obtain ⟨h1, -⟩ := h
          subst h1
          left
          rfl
        · simp at h
      · split at h
        · simp only [Except.ok.injEq, Prod.mk.injEq] at h
          obtain ⟨h1, -⟩ := h
          subst h1
          left
          rfl
        · split at h
          · simp at h
          · simp only [Except.ok.injEq, Prod.mk.injEq] at h
            obtain ⟨h1, -⟩ := h
            subst h1
            left
            rfl

/-- C8: `parse_range` never returns a range with both endpoints absent:
a separator with both sides empty fails with `EmptyRange`, and every
successfully returned range has at least one endpoint present. -/
theorem C8_no_empty_range :
    (∀ (s : String) (rg : Range), parse_range s = .ok rg →
      rg.start.isSome = true ∨ rg.stop.isSome = true) ∧
    parse_range ".." = .error ⟨0, .emptyRange⟩ :=
  ⟨fun _ _ h => pRange_ok_endpoint (parse_range_ok_inv h), rfl⟩

theorem C8_no_empty_range_witness :
    (⟨none, some ⟨⟨.rev ⟨.index 5, none⟩, []⟩, true⟩⟩ : Range).start.isSome = true ∨
    (⟨none, some ⟨⟨.rev ⟨.index 5, none⟩, []⟩, true⟩⟩ : Range).stop.isSome = true :=
  C8_no_empty_range.1 "..5" ⟨none, some ⟨⟨.rev ⟨.index 5, none⟩, []⟩, true⟩⟩ rfl

theorem takeWhile_all {p : Char → Bool} {a : List Char}
    (h : ∀ c ∈ a, p c = true) :
    a.takeWhile p = a ∧ a.dropWhile p = [] :=
  ⟨List.takeWhile_eq_self_iff.mpr h, List.dropWhile_eq_nil_iff.mpr h⟩

theorem takeWhile_stop {p : Char → Bool} :
    ∀ (a : List Char) {h : Char} (t : List Char), (∀ c ∈ a, p c = true) →
      p h = false →
      (a ++ h :: t).takeWhile p = a ∧ (a ++ h :: t).dropWhile p = h :: t := by
  intro a
  induction a with
  | nil =>
    intro h t _ hh
    simp [List.takeWhile, List.dropWhile, hh]
  | cons x xs ih =>
    intro h t hall hh
    have hx : p x = true := hall x (List.mem_cons_self x xs)
    have hxs : ∀ c ∈ xs, p c = true := fun c hc => hall c (List.mem_cons_of_mem x hc)
    obtain ⟨ih1, ih2⟩ := ih t hxs hh
    simp only [List.cons_append, List.takeWhile_cons, List.dropWhile_cons, hx,
      if_true, ih1, ih2]
    simp

theorem digitChar_isDigit (d : Nat) : (digitChar d).isDigit = true := by
  unfold digitChar
  split <;> rfl

theorem digitVal_digitChar {d : Nat} (h : d < 10) :
    digitVal (digitChar d) = d := by
  interval_cases d <;> rfl

theorem natDigits_ne_nil (n : Nat) : natDigits n ≠ [] := by
  unfold natDigits
  split
  · simp
  · simp

theorem natDigits_digits (n : Nat) : ∀ c ∈ natDigits n, c.isDigit = true := by
  induction n using Nat.strong_induction_on with
  | _ n ih =>
    unfold natDigits
    split
    · intro c hc
      simp only [List.mem_singleton] at hc
      subst hc
      exact digitChar_isDigit n
    · intro c hc
      rename_i hn
      simp only [List.mem_append, List.mem_singleton] at hc
      rcases hc with hc | hc
      · exact ih (n / 10) (Nat.div_lt_self (by omega) (by omega)) c hc
      · subst hc
        exact digitChar_isDigit (n % 10)

theorem digitsToNat_append_one (a : List Char) (c : Char) :
    digitsToNat (a ++ [c]) = digitsToNat a * 10 + digitVal c := by
  simp [digitsToNat, List.foldl_append]

theorem digitsToNat_natDigits (n : Nat) : digitsToNat (natDigits n) = n := by
  induction n using Nat.strong_induction_on with
  | _ n ih =>
    unfold natDigits
    split
    · rename_i hn
      simp [digitsToNat, digitVal_digitChar hn]
    · rename_i hn
      rw [digitsToNat_append_one,
        ih (n / 10) (Nat.div_lt_self (by omega) (by omega)),
        digitVal_digitChar (Nat.mod_lt n (by omega))]
      omega

theorem pUnsigned_ok_le {l : List Char} {n : Nat} {rest : List Char}
    (h : pUnsigned l = .ok (n, rest)) : n ≤ u64max := by
  unfold pUnsigned at h
  split at h
  · simp at h
  · split at h
    · simp at h
    · rename_i hlt
      simp only [Except.ok.injEq, Prod.mk.injEq] at h
      obtain ⟨h1, -⟩ := h
      subst h1
      omega

theorem pUnsigned_render {n : Nat} (hn : n ≤ u64max) {b2 : List Char}
    (hb : b2 = [] ∨ ∃ t, b2 = '~' :: t) :
    pUnsigned (natDigits n ++ b2) = .ok (n, b2) := by
  have hall := natDigits_digits n
  have htk : (natDigits n ++ b2).takeWhile Char.isDigit = natDigits n ∧
      (natDigits n ++ b2).dropWhile Char.isDigit = b2 := by
    rcases hb with rfl | ⟨t, rfl⟩
    · rw [List.append_nil]
      exact takeWhile_all hall
    · exact takeWhile_stop (natDigits n) t hall (by rfl)
  obtain ⟨d, ds, h9⟩ : ∃ d ds, natDigits n = d :: ds := by
    cases h9 : natDigits n with
    | nil => exact absurd h9 (natDigits_ne_nil n)
    | cons d ds => exact ⟨d, ds, rfl⟩
  have hv : digitsToNat (d :: ds) = n := by
    rw [← h9]
    exact digitsToNat_natDigits n
  have hlt : ¬ u64max < n := by omega
  rw [h9] at htk
  rw [h9]
  unfold pUnsigned
  rw [htk.1]
  simp [hv, hlt]
  exact htk.2

theorem sepStop_tilde_look (c : Char) : sepStop c (some '~') = false := by
  have h1 : ('~' == '.') = false := rfl
  have h2 : ('~' : Char).isDigit = false := rfl
  simp [sepStop, h1, h2]

theorem scanName_trivial {b2 : List Char}
    (hb : b2 = [] ∨ ∃ t, b2 = '~' :: t) : scanName b2 = ([], b2) := by
  rcases hb with rfl | ⟨t, rfl⟩
  · rfl
  · have hn : isNameChar '~' = false := rfl
    cases t with
    | nil => rfl
    | cons x xs =>
      have hs : sepStop '~' (some x) = false := by
        have h1 : ('~' == '.') = false := rfl
        have h2 : ('~' == '-') = false := rfl
        simp [sepStop, h1, h2]
      simp [scanName, hs, hn]

theorem scanName_append_eq : ∀ {l a b : List Char},
    scanName l = (a, b) → l = a ++ b := by
  intro l
  induction l with
  | nil =>
    intro a b h
    simp [scanName] at h
    simp [h.1, h.2]
  | cons c rest ih =>
    intro a b h
    simp only [scanName] at h
    split at h
    · cases h
      simp
    · split at h
      · cases h
        have := ih (Prod.mk.eta (p := scanName rest)).symm
        simp only [List.cons_append]
        rw [← this]
      · cases h
        simp

theorem scanName_replay : ∀ {l a b : List Char}, scanName l = (a, b) →
    ∀ {b2 : List Char}, (b2 = [] ∨ ∃ t, b2 = '~' :: t) →
    scanName (a ++ b2) = (a, b2) := by
  intro l
  induction l with
  | nil =>
    intro a b h b2 hb
    simp [scanName] at h
    obtain ⟨h1, -⟩ := h
    subst h1
    simpa using scanName_trivial hb
  | cons c rest ih =>
    intro a b h b2 hb
    simp only [scanName] at h
    split at h
    · cases h
      simpa using scanName_trivial hb
    · split at h
      · cases h
        rename_i hsep hname
        have hrest : scanName rest = ((scanName rest).1, (scanName rest).2) :=
          (Prod.mk.eta (p := scanName rest)).symm
        have ihres := ih hrest hb
        have hstep : sepStop c ((scanName rest).1 ++ b2).head? = false := by
          cases ha' : (scanName rest).1 with
          | nil =>
            simp only [List.nil_append]
            rcases hb with rfl | ⟨t, rfl⟩
            · rfl
            · exact sepStop_tilde_look c
          | cons x xs =>
            have hr : rest = (scanName rest).1 ++ (scanName rest).2 :=
              scanName_append_eq hrest
            have hh : rest.head? = some x := by
              rw [hr, ha']
              rfl
            rw [hh] at hsep
            simp only [List.cons_append, List.head?_cons]
            simpa using hsep
        rw [List.cons_append]
        simp only [scanName]
        rw [if_neg (by rw [hstep]; simp), if_pos hname, ihres]
      · cases h
        simpa using scanName_trivial hb

theorem pName_ok_inv {l cs rest : List Char}
    (h : pName l = .ok (cs, rest)) :
    scanName l = (cs, rest) ∧ cs ≠ tTop ∧ cs ≠ tBase ∧
    ∃ c cs2, cs = c :: cs2 ∧ c.isDigit = false ∧ (c == '+') = false ∧
      (c == '-') = false := by
  match l with
  | [] => simp [pName] at h
  | c :: r =>
    simp only [pName] at h
    split at h
    · simp at h
    · rename_i hguard
      split at h
      · simp at h
      · rename_i x run rest2 hscan
        split at h
        · simp at h
        · split at h
          · simp at h
          · rename_i ht hb
            simp only [Except.ok.injEq, Prod.mk.injEq] at h
            obtain ⟨h1, h2⟩ := h
            subst h1
            subst h2
            have hx : c = x := by
              have := scanName_append_eq hscan
              simp only [List.cons_append] at this
              exact (List.cons.injEq .. ▸ this).1
            subst hx
            simp only [Bool.or_eq_true, not_or, Bool.not_eq_true] at hguard
            exact ⟨hscan, ht, hb, c, run, rfl, hguard.1.1, hguard.1.2, hguard.2⟩

theorem pName_replay {l cs rest : List Char}
    (h : pName l = .ok (cs, rest)) {b2 : List Char}
    (hb : b2 = [] ∨ ∃ t, b2 = '~' :: t) :
    pName (cs ++ b2) = .ok (cs, b2) := by
  obtain ⟨hscan, ht, hba, c, cs2, hcs, hd, hp, hm⟩ := pName_ok_inv h
  subst hcs
  have hrep := scanName_replay hscan hb
  rw [List.cons_append]
  simp only [pName]
  rw [if_neg (by simp [hd, hp, hm])]
  rw [List.cons_append] at hrep
  simp only [hrep]
  rw [if_neg ht, if_neg hba]

theorem pRevisionBase_ok_name {l : List Char} {cs rest : List Char}
    (h : pRevisionBase l = .ok (.name cs, rest)) :
    pName l = .ok (cs, rest) := by
  match l with
  | [] => simp [pRevisionBase] at h
  | c :: r =>
    simp only [pRevisionBase] at h
    split at h
    · split at h
      · simp at h
      · simp at h
    · split at h
      · simp at h
      · simp at h
      · rename_i cs2 rest2 hpn
        simp only [Except.ok.injEq, Prod.mk.injEq, RevBase.name.injEq] at h
        obtain ⟨h1, h2⟩ := h
        subst h1
        subst h2
        exact hpn

theorem pRevisionBase_ok_index {l : List Char} {n : Nat} {rest : List Char}
    (h : pRevisionBase l = .ok (.index n, rest)) :
    n ≤ u64max := by
  match l with
  | [] => simp [pRevisionBase] at h
  | c :: r =>
    simp only [pRevisionBase] at h
    split at h
    · split at h
      · simp at h
      · rename_i m rest2 hpu
        simp only [Except.ok.injEq, Prod.mk.injEq, RevBase.index.injEq] at h
        obtain ⟨h1, -⟩ := h
        subst h1
        exact pUnsigned_ok_le hpu
    · split at h
      · simp at h
      · simp at h
      · simp at h

theorem pRevisionBase_name_replay {l cs rest : List Char}
    (h : pName l = .ok (cs, rest)) {b2 : List Char}
    (hb : b2 = [] ∨ ∃ t, b2 = '~' :: t) :
    pRevisionBase (cs ++ b2) = .ok (.name cs, b2) := by
  obtain ⟨-, -, -, c, cs2, hcs, hd, -, -⟩ := pName_ok_inv h
  have hrep := pName_replay h hb
  subst hcs
  rw [List.cons_append]
  simp only [pRevisionBase]
  rw [if_neg (by simp [hd])]
  rw [List.cons_append] at hrep
  simp only [hrep]

theorem pRevisionBase_index_replay {n : Nat} (hn : n ≤ u64max)
    {b2 : List Char} (hb : b2 = [] ∨ ∃ t, b2 = '~' :: t) :
    pRevisionBase (natDigits n ++ b2) = .ok (.index n, b2) := by
  obtain ⟨d, ds, h9⟩ : ∃ d ds, natDigits n = d :: ds := by
    cases h9 : natDigits n with
    | nil => exact absurd h9 (natDigits_ne_nil n)
    | cons d ds => exact ⟨d, ds, rfl⟩
  have hd : d.isDigit = true := by
    have := natDigits_digits n d
    rw [h9] at this
    exact this (List.mem_cons_self d ds)
  have hu := pUnsigned_render hn hb
  rw [h9] at hu
  rw [h9]
  rw [List.cons_append] at hu ⊢
  simp only [pRevisionBase]
  rw [if_pos hd]
  simp only [hu]

theorem pRevision_ok_inv {l : List Char} {r : Revision}
    (h : pRevision l = .ok (r, [])) :
    ∃ rest1, pRevisionBase l = .ok (r.base, rest1) ∧
      ((r.disc = none ∧ rest1 = []) ∨
       (∃ d rest2, r.disc = some d ∧ rest1 = '~' :: rest2 ∧
         pUnsigned rest2 = .ok (d, []))) := by
  unfold pRevision at h
  split at h
  · simp at h
  · rename_i b rest hbase
    split at h
    · rename_i rest2
      split at h
      · simp at h
      · simp at h
      · rename_i d rest3 hpu
        simp only [Except.ok.injEq, Prod.mk.injEq] at h
        obtain ⟨h1, h2⟩ := h
        subst h2
        subst h1
        exact ⟨'~' :: rest2, hbase, Or.inr ⟨d, rest2, rfl, rfl, hpu⟩⟩
    · rename_i hnt
      simp only [Except.ok.injEq, Prod.mk.injEq] at h
      obtain ⟨h1, h2⟩ := h
      subst h2
      subst h1
      exact ⟨[], hbase, Or.inl ⟨rfl, rfl⟩⟩

/-- C6: parsing, rendering to canonical text, and re-parsing a revision
is the identity: for every string accepted by `parse_revision`, the
canonical rendering of the result re-parses to an equal `Revision`. -/
theorem C6_round_trip : ∀ (s : String) (r : Revision),
    parse_revision s = .ok r →
    parse_revision (renderRevision r) = .ok r := by
  intro s r h
  have hcore : pRevision s.data = .ok (r, []) := parse_revision_ok_inv h
  obtain ⟨rest1, hbase, hdisc⟩ := pRevision_ok_inv hcore
  obtain ⟨b, disc⟩ := r
  simp only at hbase hdisc
  rcases hdisc with ⟨hnone, hrest⟩ | ⟨d, rest2, hsome, hrest, hu⟩
  · subst hnone
    subst hrest
    have hb : ([] : List Char) = [] ∨ ∃ t, ([] : List Char) = '~' :: t :=
      Or.inl rfl
    have hrb : pRevisionBase (renderBase b ++ []) = .ok (b, []) := by
      cases b with
      | name cs => exact pRevisionBase_name_replay (pRevisionBase_ok_name hbase) hb
      | index n => exact pRevisionBase_index_replay (pRevisionBase_ok_index hbase) hb
    apply parse_revision_of_core
    show pRevision (renderBase b ++ []) = .ok (⟨b, none⟩, [])
    unfold pRevision
    simp only [hrb]
  · subst hsome
    subst hrest
    have hb : ('~' :: natDigits d = []) ∨ ∃ t, '~' :: natDigits d = '~' :: t :=
      Or.inr ⟨natDigits d, rfl⟩
    have hrb : pRevisionBase (renderBase b ++ '~' :: natDigits d) =
        .ok (b, '~' :: natDigits d) := by
      cases b with
      | name cs => exact pRevisionBase_name_replay (pRevisionBase_ok_name hbase) hb
      | index n => exact pRevisionBase_index_replay (pRevisionBase_ok_index hbase) hb
    have hud : pUnsigned (natDigits d) = .ok (d, []) := by
      have := pUnsigned_render (pUnsigned_ok_le hu) (Or.inl rfl)
      rwa [List.append_nil] at this
    apply parse_revision_of_core
    show pRevision (renderBase b ++ '~' :: natDigits d) = .ok (⟨b, some d⟩, [])
    unfold pRevision
    simp only [hrb, hud]

theorem C6_round_trip_witness :
    parse_revision
        (renderRevision ⟨.name ['f', 'i', 'x', '-', 't', 'y', 'p', 'o'], none⟩) =
      .ok ⟨.name ['f', 'i', 'x', '-', 't', 'y', 'p', 'o'], none⟩ :=
  C6_round_trip "fix-typo" ⟨.name ['f', 'i', 'x', '-', 't', 'y', 'p', 'o'], none⟩ rfl

end Patch
